import Mathlib

/-!
A verification development for the LCW decompressor
(`LCWDecompressor.decompress` in `lcw_uncompress.py`).

Bytes are modelled as natural numbers; byte streams are `List Nat`.

Two embeddings of the decoder are given:

* `stepL` / `decompressLoop` — the body of the while loop (lines 33-108 of
  the source) viewed over the remaining suffix of the input, with the growing
  output buffer `dest` passed explicitly.  Each iteration consumes the opcode
  byte at the head of the suffix; the truncation guards of the source
  (`source_ptr >= len(...)`, `source_ptr + k >= len(...)`) become pattern
  matches on the suffix.

* `stepC` / `runC` — the same loop with the absolute cursor `source_ptr`
  kept exactly as in the source, where every single read of the input buffer
  and of the output buffer is a checked lookup (`l[i]?`), and an
  out-of-bounds read (a Python `IndexError`) surfaces as an `error` result.

The theorem `runC_eq_decompressLoop` proves that the two agree and that the
checked embedding never reaches the error result.
-/

namespace LCW

/-- The inner copy loop of the three back-copy opcode families
(source lines 51-55, 91-95 and 104-108):

    for i in range(count):
        if copy_start + i < len(dest_data):
            dest_data.append(dest_data[copy_start + i])
        else:
            dest_data.append(0)

Each appended byte is read from the progressively updated output buffer;
an index at or past the current end of the output appends a zero byte. -/
def backCopy (dest : List Nat) (start : Nat) : Nat → List Nat
  | 0 => dest
  | n + 1 =>
    if h : start < dest.length then
      backCopy (dest ++ [dest.get ⟨start, h⟩]) (start + 1) n
    else
      backCopy (dest ++ [0]) (start + 1) n

/-- The medium literal copy loop (source lines 65-70), over the remaining
input suffix `src`:

    for i in range(count):
        if source_ptr < len(compressed_data):
            dest_data.append(compressed_data[source_ptr])
            source_ptr += 1
        else:
            dest_data.append(0)

Returns the remaining input suffix and the new output buffer. -/
def literalCopy (src dest : List Nat) : Nat → List Nat × List Nat
  | 0 => (src, dest)
  | n + 1 =>
    match src with
    | [] => literalCopy [] (dest ++ [0]) n
    | b :: rest => literalCopy rest (dest ++ [b]) n

theorem literalCopy_fst_length_le (n : Nat) :
    ∀ (src dest : List Nat), (literalCopy src dest n).1.length ≤ src.length := by
  induction n with
  | zero => intro src dest; simp [literalCopy]
  | succ n ih =>
    intro src dest
    match src with
    | [] => simpa [literalCopy] using ih [] (dest ++ [0])
    | b :: rest =>
      simp only [literalCopy, List.length_cons]
      exact Nat.le_succ_of_le (ih rest (dest ++ [b]))

/-- One iteration of the decoding while loop (source lines 33-108), over the
remaining input suffix.  `none` means the loop ends with the output buffer
unchanged (input exhausted, explicit terminator `0x80`, or a truncated
operand hitting a `break`); `some (rest, dest)` is the state for the next
iteration.  Branches follow the source's nesting:

* `op &&& 0x80 = 0` — short back-copy from the output, relative offset
  (lines 38-55); the clamp `if copy_start < 0: copy_start = 0` is
  `Int.toNat` of `len(dest_data) - offset`;
* `op &&& 0x40 = 0` — explicit terminator `0x80` (lines 59-61) or medium
  literal copy from the input (lines 63-70);
* `op = 0xFE` — long run (lines 72-81);
* `op = 0xFF` — long back-copy from the output, absolute offset
  (lines 83-95);
* otherwise — medium back-copy from the output, absolute offset
  (lines 96-108). -/
def stepL (src dest : List Nat) : Option (List Nat × List Nat) :=
  match src with
  | [] => none
  | op :: rest =>
    if op &&& 0x80 = 0 then
      match rest with
      | [] => none
      | b :: rest2 =>
        some (rest2,
          backCopy dest (((dest.length : Int) - (b + ((op &&& 0x0F) <<< 8))).toNat)
            ((op >>> 4) + 3))
    else if op &&& 0x40 = 0 then
      if op = 0x80 then none
      else some (literalCopy rest dest (op &&& 0x3F))
    else if op = 0xFE then
      match rest with
      | b0 :: b1 :: b2 :: rest2 =>
        some (rest2, dest ++ List.replicate (b0 + (b1 <<< 8)) b2)
      | _ => none
    else if op = 0xFF then
      match rest with
      | b0 :: b1 :: b2 :: b3 :: rest2 =>
        some (rest2, backCopy dest (b2 + (b3 <<< 8)) (b0 + (b1 <<< 8)))
      | _ => none
    else
      match rest with
      | b0 :: b1 :: rest2 =>
        some (rest2, backCopy dest (b0 + (b1 <<< 8)) ((op &&& 0x3F) + 3))
      | _ => none

/-- Every loop iteration consumes at least the opcode byte: a continuing
step strictly shrinks the remaining input. -/
theorem stepL_length_lt (src dest src2 dest2 : List Nat)
    (h : stepL src dest = some (src2, dest2)) : src2.length < src.length := by
  match src with
  | [] => simp [stepL] at h
  | op :: rest =>
    unfold stepL at h
    split at h
    · rename_i hm; cases hm
    · rename_i src' op' rest' hm
      cases hm
      split at h
      · match rest with
        | [] => simp at h
        | b :: rest2 =>
          simp only [Option.some.injEq, Prod.mk.injEq] at h
          simp only [← h.1, List.length_cons]
          omega
      · split at h
        · split at h
          · cases h
          · simp only [Option.some.injEq] at h
            have hle := literalCopy_fst_length_le (op &&& 0x3F) rest dest
            rw [h] at hle
            simp only [List.length_cons] at hle ⊢
            omega
        · split at h
          · match rest with
            | b0 :: b1 :: b2 :: rest2 =>
              simp only [Option.some.injEq, Prod.mk.injEq] at h
              simp only [← h.1, List.length_cons]
              omega
            | [] | [_] | [_, _] => simp at h
          · split at h
            · match rest with
              | b0 :: b1 :: b2 :: b3 :: rest2 =>
                simp only [Option.some.injEq, Prod.mk.injEq] at h
                simp only [← h.1, List.length_cons]
                omega
              | [] | [_] | [_, _] | [_, _, _] => simp at h
            · match rest with
              | b0 :: b1 :: rest2 =>
                simp only [Option.some.injEq, Prod.mk.injEq] at h
                simp only [← h.1, List.length_cons]
                omega
              | [] | [_] => simp at h

/-- The decoding while loop: iterate `stepL` until it stops. -/
def decompressLoop (src dest : List Nat) : List Nat :=
  match h : stepL src dest with
  | none => dest
  | some (src2, dest2) => decompressLoop src2 dest2
termination_by src.length
decreasing_by exact stepL_length_lt src dest src2 dest2 h

/-- The function `LCWDecompressor.decompress`: run the decoding loop on the whole input
with an output buffer that starts empty. -/
def decompress (data : List Nat) : List Nat :=
  decompressLoop data []

/-- Fuel-indexed twin of `decompressLoop`, used only to evaluate the
decoder on concrete inputs by kernel reduction. -/
def decompressFuel : Nat → List Nat → List Nat → List Nat
  | 0, _, dest => dest
  | fuel + 1, src, dest =>
    match stepL src dest with
    | none => dest
    | some (src2, dest2) => decompressFuel fuel src2 dest2

theorem decompressLoop_eq_fuel (fuel : Nat) :
    ∀ (src dest : List Nat), src.length < fuel →
      decompressLoop src dest = decompressFuel fuel src dest := by
  induction fuel with
  | zero => intro src dest h; omega
  | succ fuel ih =>
    intro src dest h
    rw [decompressLoop]
    cases hs : stepL src dest with
    | none => simp [decompressFuel, hs]
    | some p =>
      obtain ⟨src2, dest2⟩ := p
      have hlt := stepL_length_lt src dest src2 dest2 hs
      simp only [decompressFuel, hs]
      exact ih src2 dest2 (by omega)

/-- Evaluate `decompress` on a concrete input by evaluating the fuel twin. -/
theorem decompress_eq_fuel (data : List Nat) :
    decompress data = decompressFuel (data.length + 1) data [] :=
  decompressLoop_eq_fuel (data.length + 1) data [] (Nat.lt_succ_self _)

theorem decompressLoop_stop {src dest : List Nat} (h : stepL src dest = none) :
    decompressLoop src dest = dest := by
  rw [decompressLoop, h]

theorem decompressLoop_next {src dest src2 dest2 : List Nat}
    (h : stepL src dest = some (src2, dest2)) :
    decompressLoop src dest = decompressLoop src2 dest2 := by
  rw [decompressLoop, h]

theorem stepL_nil (dest : List Nat) : stepL [] dest = none := rfl

theorem stepL_short {op : Nat} (b : Nat) (rest dest : List Nat)
    (h : op &&& 0x80 = 0) :
    stepL (op :: b :: rest) dest =
      some (rest,
        backCopy dest (((dest.length : Int) - (b + ((op &&& 0x0F) <<< 8))).toNat)
          ((op >>> 4) + 3)) := by
  simp [stepL, h]

theorem stepL_short_trunc {op : Nat} (dest : List Nat) (h : op &&& 0x80 = 0) :
    stepL [op] dest = none := by
  simp [stepL, h]

theorem stepL_term (rest dest : List Nat) : stepL (0x80 :: rest) dest = none := by
  simp [stepL, (by decide : ¬((0x80 : Nat) &&& 0x80 = 0)),
    (by decide : (0x80 : Nat) &&& 0x40 = 0)]

theorem stepL_lit {op : Nat} (rest dest : List Nat)
    (h80 : op &&& 0x80 ≠ 0) (h40 : op &&& 0x40 = 0) (hop : op ≠ 0x80) :
    stepL (op :: rest) dest = some (literalCopy rest dest (op &&& 0x3F)) := by
  simp [stepL, h80, h40, hop]

theorem stepL_fe (b0 b1 b2 : Nat) (rest dest : List Nat) :
    stepL (0xFE :: b0 :: b1 :: b2 :: rest) dest =
      some (rest, dest ++ List.replicate (b0 + (b1 <<< 8)) b2) := by
  simp [stepL, (by decide : ¬((0xFE : Nat) &&& 0x80 = 0)),
    (by decide : ¬((0xFE : Nat) &&& 0x40 = 0))]

theorem stepL_fe_trunc (rest dest : List Nat) (h : rest.length < 3) :
    stepL (0xFE :: rest) dest = none := by
  match rest with
  | [] | [_] | [_, _] =>
    simp [stepL, (by decide : ¬((0xFE : Nat) &&& 0x80 = 0)),
      (by decide : ¬((0xFE : Nat) &&& 0x40 = 0))]
  | _ :: _ :: _ :: _ => exact absurd h (by simp)

theorem stepL_ff (b0 b1 b2 b3 : Nat) (rest dest : List Nat) :
    stepL (0xFF :: b0 :: b1 :: b2 :: b3 :: rest) dest =
      some (rest, backCopy dest (b2 + (b3 <<< 8)) (b0 + (b1 <<< 8))) := by
  simp [stepL, (by decide : ¬((0xFF : Nat) &&& 0x80 = 0)),
    (by decide : ¬((0xFF : Nat) &&& 0x40 = 0))]

theorem stepL_ff_trunc (rest dest : List Nat) (h : rest.length < 4) :
    stepL (0xFF :: rest) dest = none := by
  match rest with
  | [] | [_] | [_, _] | [_, _, _] =>
    simp [stepL, (by decide : ¬((0xFF : Nat) &&& 0x80 = 0)),
      (by decide : ¬((0xFF : Nat) &&& 0x40 = 0))]
  | _ :: _ :: _ :: _ :: _ => exact absurd h (by simp)

theorem stepL_med {op : Nat} (b0 b1 : Nat) (rest dest : List Nat)
    (h80 : op &&& 0x80 ≠ 0) (h40 : op &&& 0x40 ≠ 0)
    (hfe : op ≠ 0xFE) (hff : op ≠ 0xFF) :
    stepL (op :: b0 :: b1 :: rest) dest =
      some (rest, backCopy dest (b0 + (b1 <<< 8)) ((op &&& 0x3F) + 3)) := by
  simp [stepL, h80, h40, hfe, hff]

theorem stepL_med_trunc {op : Nat} (rest dest : List Nat)
    (h80 : op &&& 0x80 ≠ 0) (h40 : op &&& 0x40 ≠ 0)
    (hfe : op ≠ 0xFE) (hff : op ≠ 0xFF) (h : rest.length < 2) :
    stepL (op :: rest) dest = none := by
  match rest with
  | [] | [_] => simp [stepL, h80, h40, hfe, hff]
  | _ :: _ :: _ => exact absurd h (by simp)

/-! ### Characterizations of the copy loops -/

theorem backCopy_succ (dest : List Nat) (start n : Nat) :
    backCopy dest start (n + 1) =
      backCopy (dest ++ [dest.getD start 0]) (start + 1) n := by
  by_cases h : start < dest.length
  · rw [backCopy, dif_pos h]
    congr 2
    simp [List.getD_eq_getElem?_getD, List.getElem?_eq_getElem h]
  · rw [backCopy, dif_neg h]
    congr 2
    simp [List.getD_eq_getElem?_getD, List.getElem?_eq_none (Nat.le_of_not_lt h)]

theorem backCopy_length (n : Nat) :
    ∀ (dest : List Nat) (start : Nat),
      (backCopy dest start n).length = dest.length + n := by
  induction n with
  | zero => intro dest start; simp [backCopy]
  | succ n ih =>
    intro dest start
    rw [backCopy_succ, ih]
    simp
    omega

/-- A back-copy whose source index always trails the write position by one
(offset one) repeats the last byte: each appended byte is read back as the
source of the next position. -/
theorem backCopy_last (n : Nat) :
    ∀ (dest : List Nat) (start : Nat), start + 1 = dest.length →
      backCopy dest start n = dest ++ List.replicate n (dest.getD start 0) := by
  induction n with
  | zero => intro dest start _; simp [backCopy]
  | succ n ih =>
    intro dest start h
    rw [backCopy_succ]
    rw [ih (dest ++ [dest.getD start 0]) (start + 1) (by simp; omega)]
    have hg : (dest ++ [dest.getD start 0]).getD (start + 1) 0 = dest.getD start 0 := by
      simp [List.getD_eq_getElem?_getD, List.getElem?_append_right, h]
    rw [hg, List.append_assoc]
    congr 1

/-- A back-copy whose source index starts at or past the end of the output
reads only zero substitutes: it appends exactly `n` zero bytes. -/
theorem backCopy_zeros (n : Nat) :
    ∀ (dest : List Nat) (start : Nat), dest.length ≤ start →
      backCopy dest start n = dest ++ List.replicate n 0 := by
  induction n with
  | zero => intro dest start _; simp [backCopy]
  | succ n ih =>
    intro dest start h
    rw [backCopy, dif_neg (by omega)]
    rw [ih (dest ++ [0]) (start + 1) (by simp; omega), List.append_assoc]
    congr 1

/-- The medium literal copy takes the next `n` input bytes verbatim and pads
with zero bytes once the input runs out. -/
theorem literalCopy_eq (n : Nat) :
    ∀ (src dest : List Nat),
      literalCopy src dest n =
        (src.drop n, dest ++ src.take n ++ List.replicate (n - src.length) 0) := by
  induction n with
  | zero => intro src dest; simp [literalCopy]
  | succ n ih =>
    intro src dest
    match src with
    | [] =>
      rw [literalCopy, ih [] (dest ++ [0])]
      simp [List.replicate_succ]
    | b :: rest =>
      rw [literalCopy, ih rest (dest ++ [b])]
      simp [List.replicate_succ]

/-! ### Opcode-class bit facts

The source classifies a medium back-copy by falling through
`op & 0x80`, `op & 0x40`, `op == 0xFE`, `op == 0xFF`; the spec describes the
same class as `opcode & 0xC0 == 0xC0` (excluding `0xFE`/`0xFF`), and the
medium literal copy as `opcode & 0xC0 == 0x80`.  These lemmas relate the two
phrasings. -/

theorem and80_of_andC0_eq_C0 {op : Nat} (h : op &&& 0xC0 = 0xC0) :
    op &&& 0x80 = 0x80 := by
  have h1 : (0xC0 : Nat) &&& 0x80 = 0x80 := by decide
  calc op &&& 0x80 = op &&& (0xC0 &&& 0x80) := by rw [(by decide : (0xC0 : Nat) &&& 0x80 = 0x80)]
    _ = op &&& 0xC0 &&& 0x80 := (Nat.and_assoc op 0xC0 0x80).symm
    _ = 0xC0 &&& 0x80 := by rw [h]
    _ = 0x80 := h1

theorem and40_of_andC0_eq_C0 {op : Nat} (h : op &&& 0xC0 = 0xC0) :
    op &&& 0x40 = 0x40 := by
  have h1 : (0xC0 : Nat) &&& 0x40 = 0x40 := by decide
  calc op &&& 0x40 = op &&& (0xC0 &&& 0x40) := by rw [(by decide : (0xC0 : Nat) &&& 0x40 = 0x40)]
    _ = op &&& 0xC0 &&& 0x40 := (Nat.and_assoc op 0xC0 0x40).symm
    _ = 0xC0 &&& 0x40 := by rw [h]
    _ = 0x40 := h1

theorem and80_of_andC0_eq_80 {op : Nat} (h : op &&& 0xC0 = 0x80) :
    op &&& 0x80 = 0x80 := by
  have h1 : (0x80 : Nat) &&& 0x80 = 0x80 := by decide
  calc op &&& 0x80 = op &&& (0xC0 &&& 0x80) := by rw [(by decide : (0xC0 : Nat) &&& 0x80 = 0x80)]
    _ = op &&& 0xC0 &&& 0x80 := (Nat.and_assoc op 0xC0 0x80).symm
    _ = 0x80 &&& 0x80 := by rw [h]
    _ = 0x80 := h1

theorem and40_of_andC0_eq_80 {op : Nat} (h : op &&& 0xC0 = 0x80) :
    op &&& 0x40 = 0 := by
  have h1 : (0x80 : Nat) &&& 0x40 = 0 := by decide
  calc op &&& 0x40 = op &&& (0xC0 &&& 0x40) := by rw [(by decide : (0xC0 : Nat) &&& 0x40 = 0x40)]
    _ = op &&& 0xC0 &&& 0x40 := (Nat.and_assoc op 0xC0 0x40).symm
    _ = 0x80 &&& 0x40 := by rw [h]
    _ = 0 := h1

/-! ### One-iteration unfoldings of the decoding loop -/

theorem decompressLoop_nil (dest : List Nat) : decompressLoop [] dest = dest :=
  decompressLoop_stop (stepL_nil dest)

theorem decompressLoop_short {op : Nat} (b : Nat) (rest dest : List Nat)
    (h : op &&& 0x80 = 0) :
    decompressLoop (op :: b :: rest) dest =
      decompressLoop rest
        (backCopy dest (((dest.length : Int) - (b + ((op &&& 0x0F) <<< 8))).toNat)
          ((op >>> 4) + 3)) :=
  decompressLoop_next (stepL_short b rest dest h)

theorem decompressLoop_short_trunc {op : Nat} (dest : List Nat)
    (h : op &&& 0x80 = 0) : decompressLoop [op] dest = dest :=
  decompressLoop_stop (stepL_short_trunc dest h)

theorem decompressLoop_term (rest dest : List Nat) :
    decompressLoop (0x80 :: rest) dest = dest :=
  decompressLoop_stop (stepL_term rest dest)

theorem decompressLoop_lit {op : Nat} (rest dest : List Nat)
    (h80 : op &&& 0x80 ≠ 0) (h40 : op &&& 0x40 = 0) (hop : op ≠ 0x80) :
    decompressLoop (op :: rest) dest =
      decompressLoop (rest.drop (op &&& 0x3F))
        (dest ++ rest.take (op &&& 0x3F) ++
          List.replicate ((op &&& 0x3F) - rest.length) 0) := by
  have h := stepL_lit rest dest h80 h40 hop
  rw [literalCopy_eq] at h
  exact decompressLoop_next h

theorem decompressLoop_fe (b0 b1 b2 : Nat) (rest dest : List Nat) :
    decompressLoop (0xFE :: b0 :: b1 :: b2 :: rest) dest =
      decompressLoop rest (dest ++ List.replicate (b0 + (b1 <<< 8)) b2) :=
  decompressLoop_next (stepL_fe b0 b1 b2 rest dest)

theorem decompressLoop_fe_trunc (rest dest : List Nat) (h : rest.length < 3) :
    decompressLoop (0xFE :: rest) dest = dest :=
  decompressLoop_stop (stepL_fe_trunc rest dest h)

theorem decompressLoop_ff (b0 b1 b2 b3 : Nat) (rest dest : List Nat) :
    decompressLoop (0xFF :: b0 :: b1 :: b2 :: b3 :: rest) dest =
      decompressLoop rest (backCopy dest (b2 + (b3 <<< 8)) (b0 + (b1 <<< 8))) :=
  decompressLoop_next (stepL_ff b0 b1 b2 b3 rest dest)

theorem decompressLoop_ff_trunc (rest dest : List Nat) (h : rest.length < 4) :
    decompressLoop (0xFF :: rest) dest = dest :=
  decompressLoop_stop (stepL_ff_trunc rest dest h)

theorem decompressLoop_med {op : Nat} (b0 b1 : Nat) (rest dest : List Nat)
    (hC0 : op &&& 0xC0 = 0xC0) (hfe : op ≠ 0xFE) (hff : op ≠ 0xFF) :
    decompressLoop (op :: b0 :: b1 :: rest) dest =
      decompressLoop rest (backCopy dest (b0 + (b1 <<< 8)) ((op &&& 0x3F) + 3)) :=
  decompressLoop_next (stepL_med b0 b1 rest dest
    (by rw [and80_of_andC0_eq_C0 hC0]; decide)
    (by rw [and40_of_andC0_eq_C0 hC0]; decide) hfe hff)

theorem decompressLoop_med_trunc {op : Nat} (rest dest : List Nat)
    (hC0 : op &&& 0xC0 = 0xC0) (hfe : op ≠ 0xFE) (hff : op ≠ 0xFF)
    (h : rest.length < 2) : decompressLoop (op :: rest) dest = dest :=
  decompressLoop_stop (stepL_med_trunc rest dest
    (by rw [and80_of_andC0_eq_C0 hC0]; decide)
    (by rw [and40_of_andC0_eq_C0 hC0]; decide) hfe hff h)

/-- Number of iterations of the decoding while loop (opcode dispatches):
one per executed loop body, mirroring `decompressLoop`. -/
def decompressSteps (src dest : List Nat) : Nat :=
  match h : stepL src dest with
  | none => if src.length = 0 then 0 else 1
  | some (src2, dest2) => decompressSteps src2 dest2 + 1
termination_by src.length
decreasing_by exact stepL_length_lt src dest src2 dest2 h

theorem decompressSteps_stop {src dest : List Nat} (h : stepL src dest = none) :
    decompressSteps src dest = if src.length = 0 then 0 else 1 := by
  rw [decompressSteps, h]

theorem decompressSteps_next {src dest src2 dest2 : List Nat}
    (h : stepL src dest = some (src2, dest2)) :
    decompressSteps src dest = decompressSteps src2 dest2 + 1 := by
  rw [decompressSteps, h]

theorem decompressSteps_le (n : Nat) :
    ∀ (src dest : List Nat), src.length ≤ n →
      decompressSteps src dest ≤ src.length := by
  induction n with
  | zero =>
    intro src dest h
    match src with
    | [] => rw [decompressSteps_stop (stepL_nil dest)]; simp
    | _ :: _ => simp at h
  | succ n ih =>
    intro src dest h
    cases hs : stepL src dest with
    | none =>
      rw [decompressSteps_stop hs]
      match src with
      | [] => simp
      | _ :: _ => simp
    | some p =>
      obtain ⟨src2, dest2⟩ := p
      rw [decompressSteps_next hs]
      have hlt := stepL_length_lt src dest src2 dest2 hs
      have := ih src2 dest2 (by omega)
      omega

/-! ### Claims about the suffix-level decoder -/

/-- Claim C2: the short back-copy starts at output position
`current output length − offset` (relative distance back, clamped at zero),
while the medium and long back-copies start at the operand offset taken as
an absolute index into the output buffer; with an output of length 4
containing `[1,2,3,4]`, a short back-copy with offset 2 and medium/long
back-copies with operand offset 2 all start at index 2 and give the same
result, but on an output of length 5 the two interpretations differ. -/
theorem claim_C2 :
    (∀ (op b : Nat) (rest dest : List Nat), op &&& 0x80 = 0 →
      decompressLoop (op :: b :: rest) dest =
        decompressLoop rest
          (backCopy dest (((dest.length : Int) - (b + ((op &&& 0x0F) <<< 8))).toNat)
            ((op >>> 4) + 3)))
  ∧ (∀ (op b0 b1 : Nat) (rest dest : List Nat),
      op &&& 0xC0 = 0xC0 → op ≠ 0xFE → op ≠ 0xFF →
      decompressLoop (op :: b0 :: b1 :: rest) dest =
        decompressLoop rest (backCopy dest (b0 + (b1 <<< 8)) ((op &&& 0x3F) + 3)))
  ∧ (∀ (b0 b1 b2 b3 : Nat) (rest dest : List Nat),
      decompressLoop (0xFF :: b0 :: b1 :: b2 :: b3 :: rest) dest =
        decompressLoop rest (backCopy dest (b2 + (b3 <<< 8)) (b0 + (b1 <<< 8))))
  ∧ decompress [0x84, 1, 2, 3, 4, 0x00, 0x02] = [1, 2, 3, 4, 3, 4, 3]
  ∧ decompress [0x84, 1, 2, 3, 4, 0xC0, 0x02, 0x00] = [1, 2, 3, 4, 3, 4, 3]
  ∧ decompress [0x84, 1, 2, 3, 4, 0xFF, 0x03, 0x00, 0x02, 0x00] =
      [1, 2, 3, 4, 3, 4, 3]
  ∧ decompress [0x85, 1, 2, 3, 4, 5, 0x00, 0x02] ≠
      decompress [0x85, 1, 2, 3, 4, 5, 0xC0, 0x02, 0x00] := by
  refine ⟨?_, ?_, ?_, ?_, ?_, ?_, ?_⟩
  · intro op b rest dest h; exact decompressLoop_short b rest dest h
  · intro op b0 b1 rest dest h1 h2 h3
    exact decompressLoop_med b0 b1 rest dest h1 h2 h3
  · intro b0 b1 b2 b3 rest dest; exact decompressLoop_ff b0 b1 b2 b3 rest dest
  · simp only [decompress_eq_fuel]; decide
  · simp only [decompress_eq_fuel]; decide
  · simp only [decompress_eq_fuel]; decide
  · simp only [decompress_eq_fuel]; decide

theorem claim_C2_witness :
    (decompressLoop [0x00, 0x02] [1, 2, 3, 4] =
      decompressLoop []
        (backCopy [1, 2, 3, 4]
          (((4 : Int) - (0x02 + ((0x00 &&& 0x0F) <<< 8))).toNat) ((0x00 >>> 4) + 3)))
  ∧ (decompressLoop [0xC0, 0x02, 0x00] [1, 2, 3, 4] =
      decompressLoop []
        (backCopy [1, 2, 3, 4] (0x02 + (0x00 <<< 8)) ((0xC0 &&& 0x3F) + 3))) :=
  ⟨claim_C2.1 0x00 0x02 [] [1, 2, 3, 4] (by decide),
   claim_C2.2.1 0xC0 0x02 0x00 [] [1, 2, 3, 4] (by decide) (by decide) (by decide)⟩

/-- Claim C3: a short back-copy opcode (`b &&& 0x80 = 0`) with one operand
byte available copies `(b >>> 4) + 3` bytes starting at output position
`output length − offset` where `offset = operand + ((b &&& 0x0F) <<< 8)`,
consuming exactly the one operand byte; a negative start is clamped to 0
and decoding continues. -/
theorem claim_C3 :
    (∀ (op b : Nat) (rest dest : List Nat), op &&& 0x80 = 0 →
      decompressLoop (op :: b :: rest) dest =
        decompressLoop rest
          (backCopy dest (((dest.length : Int) - (b + ((op &&& 0x0F) <<< 8))).toNat)
            ((op >>> 4) + 3)))
  ∧ (∀ (n : Nat) (dest : List Nat) (start : Nat),
      (backCopy dest start n).length = dest.length + n)
  ∧ decompress [0x10, 0x05] = [0, 0, 0, 0] := by
  refine ⟨?_, backCopy_length, ?_⟩
  · intro op b rest dest h; exact decompressLoop_short b rest dest h
  · simp only [decompress_eq_fuel]; decide

theorem claim_C3_witness :
    decompressLoop [0x10, 0x05] [] =
      decompressLoop []
        (backCopy [] (((0 : Int) - (0x05 + ((0x10 &&& 0x0F) <<< 8))).toNat)
          ((0x10 >>> 4) + 3)) :=
  claim_C3.1 0x10 0x05 [] [] (by decide)

/-- Claim C4: back-copies run byte-by-byte against the progressively
updated output: the byte appended for one position (a zero byte when the
source index is at or past the current output length) is readable by the
next position; hence an offset-one copy repeats the seed byte, and a short
back-copy with offset 1 and count 4 from the single seed byte `0x05`
yields `[5,5,5,5,5]`. -/
theorem claim_C4 :
    (∀ (dest : List Nat) (start n : Nat),
      backCopy dest start (n + 1) =
        backCopy (dest ++ [dest.getD start 0]) (start + 1) n)
  ∧ (∀ (n : Nat) (dest : List Nat) (start : Nat), start + 1 = dest.length →
      backCopy dest start n = dest ++ List.replicate n (dest.getD start 0))
  ∧ (∀ (n : Nat) (dest : List Nat) (start : Nat), dest.length ≤ start →
      backCopy dest start n = dest ++ List.replicate n 0)
  ∧ decompress [0x81, 0x05, 0x10, 0x01] = [0x05, 0x05, 0x05, 0x05, 0x05] := by
  refine ⟨backCopy_succ, backCopy_last, backCopy_zeros, ?_⟩
  simp only [decompress_eq_fuel]; decide

theorem claim_C4_witness :
    (backCopy [0x05] 0 4 = [0x05] ++ List.replicate 4 ([0x05].getD 0 0))
  ∧ (backCopy [] 0 2 = [] ++ List.replicate 2 0) :=
  ⟨claim_C4.2.1 4 [0x05] 0 (by decide), claim_C4.2.2.1 2 [] 0 (by decide)⟩

/-- Claim C5: the decoder terminates on every finite input, dispatching at
most `input length` opcodes (each loop iteration consumes at least the
opcode byte), and the empty input decodes to the empty output. -/
theorem claim_C5 :
    (∀ (src dest : List Nat), decompressSteps src dest ≤ src.length)
  ∧ decompress [] = [] :=
  ⟨fun src dest => decompressSteps_le src.length src dest le_rfl,
   decompressLoop_nil []⟩

/-- Claim C6: opcode `0xFE` with three operand bytes available reads a
little-endian 16-bit count and a fill value, consumes the three operand
bytes, and appends the fill value exactly `count` times;
`[0xFE, 0x05, 0x00, 0x7F]` decodes to five `0x7F` bytes. -/
theorem claim_C6 :
    (∀ (b0 b1 b2 : Nat) (rest dest : List Nat),
      decompressLoop (0xFE :: b0 :: b1 :: b2 :: rest) dest =
        decompressLoop rest (dest ++ List.replicate (b0 + (b1 <<< 8)) b2))
  ∧ decompress [0xFE, 0x05, 0x00, 0x7F] = [0x7F, 0x7F, 0x7F, 0x7F, 0x7F] := by
  refine ⟨decompressLoop_fe, ?_⟩
  simp only [decompress_eq_fuel]; decide

/-- Claim C7: a medium literal copy opcode (`op &&& 0xC0 = 0x80`,
`op ≠ 0x80`) appends the next `op &&& 0x3F` input bytes verbatim, consuming
them, and appends a zero byte for every position past the end of the input;
`[0x82, 0xAA, 0xBB]` decodes to `[0xAA, 0xBB]`. -/
theorem claim_C7 :
    (∀ (op : Nat) (rest dest : List Nat), op &&& 0xC0 = 0x80 → op ≠ 0x80 →
      decompressLoop (op :: rest) dest =
        decompressLoop (rest.drop (op &&& 0x3F))
          (dest ++ rest.take (op &&& 0x3F) ++
            List.replicate ((op &&& 0x3F) - rest.length) 0))
  ∧ decompress [0x82, 0xAA, 0xBB] = [0xAA, 0xBB] := by
  refine ⟨?_, ?_⟩
  · intro op rest dest hC0 hop
    exact decompressLoop_lit rest dest
      (by rw [and80_of_andC0_eq_80 hC0]; decide) (and40_of_andC0_eq_80 hC0) hop
  · simp only [decompress_eq_fuel]; decide

theorem claim_C7_witness :
    decompressLoop [0x82, 0xAA, 0xBB] [] =
      decompressLoop ([0xAA, 0xBB].drop (0x82 &&& 0x3F))
        ([] ++ [0xAA, 0xBB].take (0x82 &&& 0x3F) ++
          List.replicate ((0x82 &&& 0x3F) - 2) 0) :=
  claim_C7.1 0x82 [0xAA, 0xBB] [] (by decide) (by decide)

/-- Claim C8: opcode `0x80` stops decoding immediately, returning the
output produced so far and ignoring the rest of the input; in particular
`[0x80]`, and `0x80` followed by anything, decode to the empty output. -/
theorem claim_C8 :
    (∀ (rest dest : List Nat), decompressLoop (0x80 :: rest) dest = dest)
  ∧ (∀ (suffix : List Nat), decompress (0x80 :: suffix) = [])
  ∧ decompress [0x80] = [] :=
  ⟨decompressLoop_term,
   fun suffix => decompressLoop_term suffix [],
   decompressLoop_term [] []⟩

/-- Claim C9: when fewer operand bytes remain than the opcode requires
(1 short back-copy, 2 medium back-copy, 3 long run `0xFE`, 4 long back-copy
`0xFF`), decoding stops with the output produced before that opcode;
`[0xFF, 0x05]` decodes to the empty output. -/
theorem claim_C9 :
    (∀ (op : Nat) (dest : List Nat), op &&& 0x80 = 0 →
      decompressLoop [op] dest = dest)
  ∧ (∀ (op : Nat) (rest dest : List Nat),
      op &&& 0xC0 = 0xC0 → op ≠ 0xFE → op ≠ 0xFF → rest.length < 2 →
      decompressLoop (op :: rest) dest = dest)
  ∧ (∀ (rest dest : List Nat), rest.length < 3 →
      decompressLoop (0xFE :: rest) dest = dest)
  ∧ (∀ (rest dest : List Nat), rest.length < 4 →
      decompressLoop (0xFF :: rest) dest = dest)
  ∧ decompress [0xFF, 0x05] = [] := by
  refine ⟨?_, ?_, decompressLoop_fe_trunc, decompressLoop_ff_trunc, ?_⟩
  · intro op dest h; exact decompressLoop_short_trunc dest h
  · intro op rest dest h1 h2 h3 h4
    exact decompressLoop_med_trunc rest dest h1 h2 h3 h4
  · simp only [decompress_eq_fuel]; decide

theorem claim_C9_witness :
    (decompressLoop [0x00] [] = [])
  ∧ (decompressLoop [0xC0, 0x07] [] = [])
  ∧ (decompressLoop [0xFE, 0x01] [] = [])
  ∧ (decompressLoop [0xFF, 0x05] [] = []) :=
  ⟨claim_C9.1 0x00 [] (by decide),
   claim_C9.2.1 0xC0 [0x07] [] (by decide) (by decide) (by decide) (by decide),
   claim_C9.2.2.1 [0x01] [] (by decide),
   claim_C9.2.2.2.1 [0x05] [] (by decide)⟩

/-! ### The checked embedding: absolute cursor and guarded reads

Here the cursor `source_ptr` is kept as in the source, and every indexing
operation on the input buffer and on the output buffer is a checked lookup
`l[i]?`; `none` — a Python `IndexError` — is propagated as an error. -/

/-- Checked variant of the back-copy inner loop: the read
`dest_data[copy_start + i]` happens only under the guard
`copy_start + i < len(dest_data)` and is a checked lookup. -/
def backCopyC (dest : List Nat) (start : Nat) : Nat → Option (List Nat)
  | 0 => some dest
  | n + 1 =>
    if start < dest.length then
      match dest[start]? with
      | some b => backCopyC (dest ++ [b]) (start + 1) n
      | none => none
    else
      backCopyC (dest ++ [0]) (start + 1) n

/-- Checked variant of the medium literal copy loop, with the absolute
cursor: `compressed_data[source_ptr]` is read only under the guard
`source_ptr < len(compressed_data)` and is a checked lookup.  Returns the
new cursor and output buffer. -/
def literalCopyC (data : List Nat) : Nat → List Nat → Nat → Option (Nat × List Nat)
  | sp, dest, 0 => some (sp, dest)
  | sp, dest, n + 1 =>
    if sp < data.length then
      match data[sp]? with
      | some b => literalCopyC data (sp + 1) (dest ++ [b]) n
      | none => none
    else
      literalCopyC data sp (dest ++ [0]) n

/-- The checked back-copy never errors and agrees with `backCopy`. -/
theorem backCopyC_eq (n : Nat) :
    ∀ (dest : List Nat) (start : Nat),
      backCopyC dest start n = some (backCopy dest start n) := by
  induction n with
  | zero => intro dest start; rfl
  | succ n ih =>
    intro dest start
    by_cases h : start < dest.length
    · rw [backCopyC, if_pos h, List.getElem?_eq_getElem h, backCopy, dif_pos h]
      exact ih (dest ++ [dest.get ⟨start, h⟩]) (start + 1)
    · rw [backCopyC, if_neg h, backCopy, dif_neg h]
      exact ih (dest ++ [0]) (start + 1)

/-- The checked literal copy never errors when the cursor is in range, its
cursor moves forward, never past the end of the input, and the result agrees
with `literalCopy` over the remaining input suffix. -/
theorem literalCopyC_eq (n : Nat) :
    ∀ (data : List Nat) (sp : Nat) (dest : List Nat), sp ≤ data.length →
      ∃ sp2,
        literalCopyC data sp dest n =
          some (sp2, (literalCopy (data.drop sp) dest n).2)
        ∧ data.drop sp2 = (literalCopy (data.drop sp) dest n).1
        ∧ sp ≤ sp2 ∧ sp2 ≤ data.length := by
  induction n with
  | zero =>
    intro data sp dest h
    exact ⟨sp, rfl, rfl, le_rfl, h⟩
  | succ n ih =>
    intro data sp dest h
    by_cases hlt : sp < data.length
    · have hdrop : data.drop sp = data[sp] :: data.drop (sp + 1) :=
        List.drop_eq_getElem_cons hlt
      obtain ⟨sp2, h1, h2, h3, h4⟩ := ih data (sp + 1) (dest ++ [data[sp]]) hlt
      refine ⟨sp2, ?_, ?_, by omega, h4⟩
      · rw [literalCopyC, if_pos hlt, List.getElem?_eq_getElem hlt, hdrop]
        show literalCopyC data (sp + 1) (dest ++ [data[sp]]) n =
          some (sp2, (literalCopy (data.drop (sp + 1)) (dest ++ [data[sp]]) n).2)
        exact h1
      · rw [hdrop]
        show data.drop sp2 =
          (literalCopy (data.drop (sp + 1)) (dest ++ [data[sp]]) n).1
        exact h2
    · have hdrop : data.drop sp = [] :=
        List.drop_of_length_le (by omega)
      obtain ⟨sp2, h1, h2, h3, h4⟩ := ih data sp (dest ++ [0]) h
      rw [hdrop] at h1 h2
      refine ⟨sp2, ?_, ?_, h3, h4⟩
      · rw [literalCopyC, if_neg hlt, hdrop]
        show literalCopyC data sp (dest ++ [0]) n =
          some (sp2, (literalCopy [] (dest ++ [0]) n).2)
        exact h1
      · rw [hdrop]
        show data.drop sp2 = (literalCopy [] (dest ++ [0]) n).1
        exact h2

/-- Result of one iteration of the checked while loop: an out-of-bounds
read (`error`), a `break`/terminator ending the loop with the final cursor
and the output so far (`halt`), or the state for the next iteration
(`cont`). -/
inductive StepResult where
  | error : StepResult
  | halt : Nat → List Nat → StepResult
  | cont : Nat → List Nat → StepResult
deriving DecidableEq

/-- One iteration of the while loop (source lines 33-108) with the absolute
cursor, every read checked.  The opcode is read at `sp` (the loop reads
`compressed_data[source_ptr]` under the loop condition
`source_ptr < len(compressed_data)`), the cursor advances by one, and the
operand guards are exactly the source's comparisons of `source_ptr`
against `len(compressed_data)`. -/
def stepC (data : List Nat) (sp : Nat) (dest : List Nat) : StepResult :=
  match data[sp]? with
  | none => .error
  | some op =>
    if op &&& 0x80 = 0 then
      if data.length ≤ sp + 1 then .halt (sp + 1) dest
      else
        match data[sp + 1]? with
        | none => .error
        | some b =>
          match backCopyC dest
              (((dest.length : Int) - (b + ((op &&& 0x0F) <<< 8))).toNat)
              ((op >>> 4) + 3) with
          | none => .error
          | some d => .cont (sp + 2) d
    else if op &&& 0x40 = 0 then
      if op = 0x80 then .halt (sp + 1) dest
      else
        match literalCopyC data (sp + 1) dest (op &&& 0x3F) with
        | none => .error
        | some (sp2, d) => .cont sp2 d
    else if op = 0xFE then
      if data.length ≤ sp + 3 then .halt (sp + 1) dest
      else
        match data[sp + 1]?, data[sp + 2]?, data[sp + 3]? with
        | some b0, some b1, some b2 =>
          .cont (sp + 4) (dest ++ List.replicate (b0 + (b1 <<< 8)) b2)
        | _, _, _ => .error
    else if op = 0xFF then
      if data.length ≤ sp + 4 then .halt (sp + 1) dest
      else
        match data[sp + 1]?, data[sp + 2]?, data[sp + 3]?, data[sp + 4]? with
        | some b0, some b1, some b2, some b3 =>
          match backCopyC dest (b2 + (b3 <<< 8)) (b0 + (b1 <<< 8)) with
          | none => .error
          | some d => .cont (sp + 5) d
        | _, _, _, _ => .error
    else
      if data.length ≤ sp + 2 then .halt (sp + 1) dest
      else
        match data[sp + 1]?, data[sp + 2]? with
        | some b0, some b1 =>
          match backCopyC dest (b0 + (b1 <<< 8)) ((op &&& 0x3F) + 3) with
          | none => .error
          | some d => .cont (sp + 3) d
        | _, _ => .error


/-- Case analysis of one checked iteration, related to the suffix-level
step: when the loop condition `sp < len(data)` holds, the checked step
either halts with the cursor advanced past the opcode byte (a terminator or
a truncated operand, where the suffix-level step stops), or continues with
a strictly larger, still in-range cursor and the same output buffer as the
suffix-level step.  In particular it never reaches the `error` result. -/
theorem stepC_cases (data : List Nat) (sp : Nat) (dest : List Nat)
    (h : sp < data.length) :
    (stepC data sp dest = .halt (sp + 1) dest
      ∧ stepL (data.drop sp) dest = none)
  ∨ (∃ sp2 dest2, stepC data sp dest = .cont sp2 dest2
      ∧ sp < sp2 ∧ sp2 ≤ data.length
      ∧ stepL (data.drop sp) dest = some (data.drop sp2, dest2)) := by
  have hdrop : data.drop sp = data[sp] :: data.drop (sp + 1) :=
    List.drop_eq_getElem_cons h
  by_cases h80 : data[sp] &&& 0x80 = 0
  · by_cases hg : data.length ≤ sp + 1
    · left
      refine ⟨?_, ?_⟩
      · rw [stepC, List.getElem?_eq_getElem h]
        simp only [if_pos h80, if_pos hg]
      · rw [hdrop, List.drop_of_length_le hg]
        exact stepL_short_trunc dest h80
    · have h1 : sp + 1 < data.length := by omega
      right
      refine ⟨sp + 2,
        backCopy dest
          (((dest.length : Int) - (data[sp + 1] + ((data[sp] &&& 0x0F) <<< 8))).toNat)
          ((data[sp] >>> 4) + 3), ?_, by omega, by omega, ?_⟩
      · rw [stepC, List.getElem?_eq_getElem h]
        simp only [if_pos h80, if_neg hg, List.getElem?_eq_getElem h1, backCopyC_eq]
      · rw [hdrop, List.drop_eq_getElem_cons h1]
        exact stepL_short (data[sp + 1]) (data.drop (sp + 2)) dest h80
  · by_cases h40 : data[sp] &&& 0x40 = 0
    · by_cases h128 : data[sp] = 0x80
      · left
        refine ⟨?_, ?_⟩
        · rw [stepC, List.getElem?_eq_getElem h]
          simp only [if_neg h80, if_pos h40, if_pos h128]
        · rw [hdrop, h128]
          exact stepL_term _ dest
      · obtain ⟨sp2, hl1, hl2, hl3, hl4⟩ :=
          literalCopyC_eq (data[sp] &&& 0x3F) data (sp + 1) dest (by omega)
        right
        refine ⟨sp2, (literalCopy (data.drop (sp + 1)) dest (data[sp] &&& 0x3F)).2,
          ?_, by omega, hl4, ?_⟩
        · rw [stepC, List.getElem?_eq_getElem h]
          simp only [if_neg h80, if_pos h40, if_neg h128, hl1]
        · rw [hdrop, hl2]
          rw [stepL_lit (data.drop (sp + 1)) dest h80 h40 h128]
    · by_cases hfe : data[sp] = 0xFE
      · by_cases hg : data.length ≤ sp + 3
        · left
          refine ⟨?_, ?_⟩
          · rw [stepC, List.getElem?_eq_getElem h]
            simp only [if_neg h80, if_neg h40, if_pos hfe, if_pos hg]
          · rw [hdrop, hfe]
            exact stepL_fe_trunc (data.drop (sp + 1)) dest
              (by simp only [List.length_drop]; omega)
        · have h1 : sp + 1 < data.length := by omega
          have h2 : sp + 2 < data.length := by omega
          have h3 : sp + 3 < data.length := by omega
          right
          refine ⟨sp + 4,
            dest ++ List.replicate (data[sp + 1] + (data[sp + 2] <<< 8)) (data[sp + 3]),
            ?_, by omega, by omega, ?_⟩
          · rw [stepC, List.getElem?_eq_getElem h]
            simp only [if_neg h80, if_neg h40, if_pos hfe, if_neg hg,
              List.getElem?_eq_getElem h1, List.getElem?_eq_getElem h2,
              List.getElem?_eq_getElem h3]
          · rw [hdrop, List.drop_eq_getElem_cons h1, List.drop_eq_getElem_cons h2,
              List.drop_eq_getElem_cons h3, hfe]
            exact stepL_fe (data[sp + 1]) (data[sp + 2]) (data[sp + 3])
              (data.drop (sp + 4)) dest
      · by_cases hff : data[sp] = 0xFF
        · by_cases hg : data.length ≤ sp + 4
          · left
            refine ⟨?_, ?_⟩
            · rw [stepC, List.getElem?_eq_getElem h]
              simp only [if_neg h80, if_neg h40, if_neg hfe, if_pos hff, if_pos hg]
            · rw [hdrop, hff]
              exact stepL_ff_trunc (data.drop (sp + 1)) dest
                (by simp only [List.length_drop]; omega)
          · have h1 : sp + 1 < data.length := by omega
            have h2 : sp + 2 < data.length := by omega
            have h3 : sp + 3 < data.length := by omega
            have h4 : sp + 4 < data.length := by omega
            right
            refine ⟨sp + 5,
              backCopy dest (data[sp + 3] + (data[sp + 4] <<< 8))
                (data[sp + 1] + (data[sp + 2] <<< 8)), ?_, by omega, by omega, ?_⟩
            · rw [stepC, List.getElem?_eq_getElem h]
              simp only [if_neg h80, if_neg h40, if_neg hfe, if_pos hff, if_neg hg,
                List.getElem?_eq_getElem h1, List.getElem?_eq_getElem h2,
                List.getElem?_eq_getElem h3, List.getElem?_eq_getElem h4,
                backCopyC_eq]
            · rw [hdrop, List.drop_eq_getElem_cons h1, List.drop_eq_getElem_cons h2,
                List.drop_eq_getElem_cons h3, List.drop_eq_getElem_cons h4, hff]
              exact stepL_ff (data[sp + 1]) (data[sp + 2]) (data[sp + 3])
                (data[sp + 4]) (data.drop (sp + 5)) dest
        · by_cases hg : data.length ≤ sp + 2
          · left
            refine ⟨?_, ?_⟩
            · rw [stepC, List.getElem?_eq_getElem h]
              simp only [if_neg h80, if_neg h40, if_neg hfe, if_neg hff, if_pos hg]
            · rw [hdrop]
              exact stepL_med_trunc (data.drop (sp + 1)) dest h80 h40 hfe hff
                (by simp only [List.length_drop]; omega)
          · have h1 : sp + 1 < data.length := by omega
            have h2 : sp + 2 < data.length := by omega
            right
            refine ⟨sp + 3,
              backCopy dest (data[sp + 1] + (data[sp + 2] <<< 8))
                ((data[sp] &&& 0x3F) + 3), ?_, by omega, by omega, ?_⟩
            · rw [stepC, List.getElem?_eq_getElem h]
              simp only [if_neg h80, if_neg h40, if_neg hfe, if_neg hff, if_neg hg,
                List.getElem?_eq_getElem h1, List.getElem?_eq_getElem h2,
                backCopyC_eq]
            · rw [hdrop, List.drop_eq_getElem_cons h1, List.drop_eq_getElem_cons h2]
              exact stepL_med (data[sp + 1]) (data[sp + 2]) (data.drop (sp + 3))
                dest h80 h40 hfe hff


/-- The checked while loop: repeat `stepC` while `source_ptr` is below the
input length (the loop condition of line 33), propagating an error; on
normal exit return the final cursor and the output buffer. -/
def runC (data : List Nat) (sp : Nat) (dest : List Nat) : Option (Nat × List Nat) :=
  if h : sp < data.length then
    match hst : stepC data sp dest with
    | .error => none
    | .halt sp2 d => some (sp2, d)
    | .cont sp2 d => runC data sp2 d
  else some (sp, dest)
termination_by data.length - sp
decreasing_by
  rcases stepC_cases data sp dest h with ⟨h1, _⟩ | ⟨sp3, dest3, h1, h2, h3, _⟩
  · rw [hst] at h1; cases h1
  · rw [hst] at h1; injection h1 with e1 e2; omega

/-- The decoder with every buffer access checked: `none` would be a
Python `IndexError` escaping `LCWDecompressor.decompress`. -/
def decompressChecked (data : List Nat) : Option (List Nat) :=
  (runC data 0 []).map fun p => p.2

theorem runC_halt (data : List Nat) {sp : Nat} {dest : List Nat}
    {sp2 : Nat} {dest2 : List Nat} (hlt : sp < data.length)
    (h1 : stepC data sp dest = .halt sp2 dest2) :
    runC data sp dest = some (sp2, dest2) := by
  rw [runC, dif_pos hlt]
  split
  · rename_i heq; rw [h1] at heq; cases heq
  · rename_i s d heq; rw [h1] at heq; injection heq with e1 e2; rw [← e1, ← e2]
  · rename_i s d heq; rw [h1] at heq; cases heq

theorem runC_cont (data : List Nat) {sp : Nat} {dest : List Nat}
    {sp2 : Nat} {dest2 : List Nat} (hlt : sp < data.length)
    (h1 : stepC data sp dest = .cont sp2 dest2) :
    runC data sp dest = runC data sp2 dest2 := by
  rw [runC, dif_pos hlt]
  split
  · rename_i heq; rw [h1] at heq; cases heq
  · rename_i s d heq; rw [h1] at heq; cases heq
  · rename_i s d heq; rw [h1] at heq; injection heq with e1 e2; rw [← e1, ← e2]

theorem runC_exit (data : List Nat) {sp : Nat} (dest : List Nat)
    (hlt : ¬ sp < data.length) : runC data sp dest = some (sp, dest) := by
  rw [runC, dif_neg hlt]

/-- The checked loop never errors, its final cursor stays within the input,
and its output agrees with the suffix-level loop. -/
theorem runC_eq_decompressLoop (data : List Nat) :
    ∀ (k sp : Nat) (dest : List Nat), data.length - sp ≤ k → sp ≤ data.length →
      ∃ sp2, runC data sp dest = some (sp2, decompressLoop (data.drop sp) dest)
        ∧ sp2 ≤ data.length := by
  intro k
  induction k with
  | zero =>
    intro sp dest hk hsp
    refine ⟨sp, ?_, hsp⟩
    rw [runC_exit data dest (by omega), List.drop_of_length_le (by omega),
      decompressLoop_nil]
  | succ k ih =>
    intro sp dest hk hsp
    by_cases hlt : sp < data.length
    · rcases stepC_cases data sp dest hlt with ⟨h1, h2⟩ | ⟨sp3, dest3, h1, h2, h3, h4⟩
      · refine ⟨sp + 1, ?_, by omega⟩
        rw [runC_halt data hlt h1, decompressLoop_stop h2]
      · obtain ⟨sp4, hr1, hr2⟩ := ih sp3 dest3 (by omega) h3
        refine ⟨sp4, ?_, hr2⟩
        rw [runC_cont data hlt h1, hr1, decompressLoop_next h4]
    · refine ⟨sp, ?_, hsp⟩
      rw [runC_exit data dest hlt, List.drop_of_length_le (by omega),
        decompressLoop_nil]

/-- Claim C1: on every input the decoder returns a byte sequence and never
raises: running `decompress` with every read of the input buffer and of the
output buffer bounds-checked reaches no error branch, and produces exactly
the byte sequence `decompress` returns. -/
theorem claim_C1 (data : List Nat) :
    decompressChecked data = some (decompress data) := by
  obtain ⟨sp2, h1, h2⟩ :=
    runC_eq_decompressLoop data data.length 0 [] (by omega) (Nat.zero_le _)
  rw [decompressChecked, h1]
  simp [decompress, List.drop_zero]

/-- The cursor positions visited by the checked loop: the position at the
start of every loop iteration, the position after the opcode byte when an
iteration halts mid-opcode, and the final resting position. -/
def traceC (data : List Nat) (sp : Nat) (dest : List Nat) : List Nat :=
  if h : sp < data.length then
    match hst : stepC data sp dest with
    | .error => [sp]
    | .halt sp2 _ => [sp, sp2]
    | .cont sp2 dest2 => sp :: traceC data sp2 dest2
  else [sp]
termination_by data.length - sp
decreasing_by
  rcases stepC_cases data sp dest h with ⟨h1, _⟩ | ⟨sp3, dest3, h1, h2, h3, _⟩
  · rw [hst] at h1; cases h1
  · rw [hst] at h1; injection h1 with e1 e2; omega

/-- The cursor positions visited while decompressing `data` from cursor 0
with an empty output buffer. -/
def cursorTrace (data : List Nat) : List Nat := traceC data 0 []

theorem traceC_halt (data : List Nat) {sp : Nat} {dest : List Nat}
    {sp2 : Nat} {dest2 : List Nat} (hlt : sp < data.length)
    (h1 : stepC data sp dest = .halt sp2 dest2) :
    traceC data sp dest = [sp, sp2] := by
  rw [traceC, dif_pos hlt]
  split
  · rename_i heq; rw [h1] at heq; cases heq
  · rename_i s d heq; rw [h1] at heq; injection heq with e1 e2; rw [← e1]
  · rename_i s d heq; rw [h1] at heq; cases heq

theorem traceC_cont (data : List Nat) {sp : Nat} {dest : List Nat}
    {sp2 : Nat} {dest2 : List Nat} (hlt : sp < data.length)
    (h1 : stepC data sp dest = .cont sp2 dest2) :
    traceC data sp dest = sp :: traceC data sp2 dest2 := by
  rw [traceC, dif_pos hlt]
  split
  · rename_i heq; rw [h1] at heq; cases heq
  · rename_i s d heq; rw [h1] at heq; cases heq
  · rename_i s d heq; rw [h1] at heq; injection heq with e1 e2; rw [← e1, ← e2]

theorem traceC_exit (data : List Nat) {sp : Nat} (dest : List Nat)
    (hlt : ¬ sp < data.length) : traceC data sp dest = [sp] := by
  rw [traceC, dif_neg hlt]

/-- Fuel-indexed twin of `traceC`, used only to evaluate it on concrete
inputs by kernel reduction. -/
def traceFuel : Nat → List Nat → Nat → List Nat → List Nat
  | 0, _, sp, _ => [sp]
  | fuel + 1, data, sp, dest =>
    if sp < data.length then
      match stepC data sp dest with
      | .error => [sp]
      | .halt sp2 _ => [sp, sp2]
      | .cont sp2 dest2 => sp :: traceFuel fuel data sp2 dest2
    else [sp]

theorem traceC_eq_fuel (data : List Nat) :
    ∀ (fuel sp : Nat) (dest : List Nat), data.length - sp < fuel →
      traceC data sp dest = traceFuel fuel data sp dest := by
  intro fuel
  induction fuel with
  | zero => intro sp dest h; omega
  | succ fuel ih =>
    intro sp dest h
    by_cases hlt : sp < data.length
    · rcases stepC_cases data sp dest hlt with ⟨h1, _⟩ | ⟨sp3, dest3, h1, h2, h3, _⟩
      · rw [traceC_halt data hlt h1, traceFuel, if_pos hlt]
        simp only [h1]
      · rw [traceC_cont data hlt h1, traceFuel, if_pos hlt]
        simp only [h1]
        rw [ih sp3 dest3 (by omega)]
    · rw [traceC_exit data dest hlt, traceFuel, if_neg hlt]

theorem cursorTrace_eq_fuel (data : List Nat) :
    cursorTrace data = traceFuel (data.length + 1) data 0 [] :=
  traceC_eq_fuel data (data.length + 1) 0 [] (by omega)

theorem traceC_le (data : List Nat) :
    ∀ (k sp : Nat) (dest : List Nat), data.length - sp ≤ k → sp ≤ data.length →
      ∀ x ∈ traceC data sp dest, x ≤ data.length := by
  intro k
  induction k with
  | zero =>
    intro sp dest hk hsp x hx
    rw [traceC_exit data dest (by omega)] at hx
    simp at hx
    omega
  | succ k ih =>
    intro sp dest hk hsp x hx
    by_cases hlt : sp < data.length
    · rcases stepC_cases data sp dest hlt with ⟨h1, _⟩ | ⟨sp3, dest3, h1, h2, h3, _⟩
      · rw [traceC_halt data hlt h1] at hx
        simp at hx
        rcases hx with rfl | rfl <;> omega
      · rw [traceC_cont data hlt h1] at hx
        rcases List.mem_cons.mp hx with rfl | hx2
        · omega
        · exact ih sp3 dest3 (by omega) h3 x hx2
    · rw [traceC_exit data dest hlt] at hx
      simp at hx
      omega

/-- Claim C10: the input cursor never exceeds the input length: every
cursor position visited by the decoding loop — at the start of every
iteration and after every fully or partially consumed opcode — is at most
the length of the input. -/
theorem claim_C10 (data : List Nat) (x : Nat) (hx : x ∈ cursorTrace data) :
    x ≤ data.length :=
  traceC_le data data.length 0 [] (by omega) (Nat.zero_le _) x hx

theorem claim_C10_witness :
    3 ∈ cursorTrace [0x82, 0xAA, 0xBB]
  ∧ 3 ≤ ([0x82, 0xAA, 0xBB] : List Nat).length :=
  ⟨by rw [cursorTrace_eq_fuel]; decide,
   claim_C10 [0x82, 0xAA, 0xBB] 3 (by rw [cursorTrace_eq_fuel]; decide)⟩

end LCW
